import Mathlib

/-!
Verification development for the tiled-inference transform/merge pipeline
(`utils/chain_operators.py`): a shallow embedding of the `ChainOperator`
framework and its concrete stages, with theorems about the spec's claims.

Coordinates and scale factors are embedded as rationals (Python floats),
Python integers as `ℤ`/`ℕ`, Python `//` as `Int.fdiv` (floor division),
Python `int()` on a float as truncation toward zero, and Python exceptions
as `Except`/`Option`.
-/

/-- Python `int()` applied to a float: truncation toward zero. -/
def truncToZero (q : ℚ) : ℤ :=
  if 0 ≤ q then ⌊q⌋ else ⌈q⌉

/-- The error kinds the pipeline can raise: the domain-specific
`NotEnoughBoxes` (the spec's InsufficientDetections) and Python's raw
`ZeroDivisionError`. -/
inductive PipelineError where
  | notEnoughBoxes : PipelineError
  | zeroDivisionError : PipelineError
deriving DecidableEq, Repr

/-- A detection box `(xmin, ymin, xmax, ymax)` — one row of the `boxes`
tensor (columns 0..3). -/
structure Box where
  xmin : ℚ
  ymin : ℚ
  xmax : ℚ
  ymax : ℚ
deriving DecidableEq, Repr

/-- A prediction dict as produced by the detection model: parallel `boxes`,
`labels`, `scores` sequences plus the optional auxiliary scalar
`box_height` attribute (absent until `BoxHeightPredictionOperator.backward`
attaches it). -/
structure Prediction where
  boxes : List Box
  labels : List ℤ
  scores : List ℚ
  boxHeight : Option ℚ
deriving DecidableEq, Repr

/-- Modelled from the spec: `split_sequence` (imported from `utils.misc`,
not part of the provided sources) partitions a sequence into contiguous,
order-preserving groups of the given batch size, the last group possibly
smaller. -/
def split_sequence (batchSize : ℕ) : List α → List (List α)
  | [] => []
  | x :: xs =>
      (x :: xs.take (batchSize - 1)) :: split_sequence batchSize (xs.drop (batchSize - 1))
termination_by l => l.length
decreasing_by
  simp only [List.length_drop, List.length_cons]
  omega

/-- `BatchingOperator.__call__`: `results = []`, then for each batch of
`split_sequence(data, batch_size)` extend `results` with
`next_operator(batch)`. -/
def batchingCall (batchSize : ℕ) (next_operator : List α → List β) (data : List α) :
    List β :=
  ((split_sequence batchSize data).map next_operator).flatten

/-- `BoxHeightPredictionOperator.backward`: raise `NotEnoughBoxes` when
`len(boxes) < min_boxes_count`, else attach the mean of `boxes[:, 3] -
boxes[:, 1]` (ymax − ymin) as `prediction['box_height']`. -/
def boxHeightPredictionBackward (min_boxes_count : ℕ) (prediction : Prediction) :
    Except PipelineError Prediction :=
  if prediction.boxes.length < min_boxes_count then
    Except.error PipelineError.notEnoughBoxes
  else
    Except.ok { prediction with
      boxHeight := some (((prediction.boxes.map (fun b => b.ymax - b.ymin)).sum) /
        (prediction.boxes.length : ℚ)) }

/-- Configuration of `LongRectangleCropOperator.__init__` (defaults
`ratio_threshold=1.3`, `split_at=0.6`, `merge_iou_threshold=0.3`). -/
structure LongRectangleCropOperator where
  ratio_threshold : ℚ := 13/10
  split_at : ℚ := 3/5
  merge_iou_threshold : ℚ := 3/10
deriving DecidableEq, Repr

/-- `LongRectangleCropOperator.backward`: collect `predictions['box_height']`
over `zip(data, all_start_points)` and return their arithmetic mean.
A missing `box_height` key or an empty collection raises (KeyError /
ZeroDivisionError), embedded as `none`. -/
def LongRectangleCropOperator.backward (_op : LongRectangleCropOperator)
    (data : List Prediction) (all_start_points : List (ℚ × ℚ)) : Option ℚ :=
  match (data.zip all_start_points).mapM (fun pr => pr.1.boxHeight) with
  | none => none
  | some box_heights =>
      if box_heights.length = 0 then none
      else some (box_heights.sum / (box_heights.length : ℚ))

/-- `ResizingImageOperator.forward`: scale so the longer side equals
`image_max_size`; return the resized dimensions together with the context
`(factor_w, factor_h) = (resized/original per axis)`. -/
def resizingImageForward (image_max_size : ℕ) (width height : ℕ) :
    (ℕ × ℕ) × (ℚ × ℚ) :=
  let factor : ℚ :=
    if height > width then (image_max_size : ℚ) / height
    else (image_max_size : ℚ) / width
  let rw : ℤ := truncToZero ((width : ℚ) * factor)
  let rh : ℤ := truncToZero ((height : ℚ) * factor)
  ((rw.toNat, rh.toNat), ((rw.toNat : ℚ) / width, (rh.toNat : ℚ) / height))

/-- `ResizingImageOperator.backward`: divide `xmin`, `xmax` by `factor_w`,
`ymin`, `ymax` by `factor_h`, and `box_height` by `factor_h`. A missing
`box_height` key raises (KeyError), embedded as `none`. -/
def resizingImageBackward (prediction : Prediction) (factor : ℚ × ℚ) :
    Option Prediction :=
  match prediction.boxHeight with
  | none => none
  | some bh => some { prediction with
      boxes := prediction.boxes.map (fun b =>
        ⟨b.xmin / factor.1, b.ymin / factor.2, b.xmax / factor.1, b.ymax / factor.2⟩),
      boxHeight := some (bh / factor.2) }

/-- Scale a prediction's box coordinates by per-axis factors and its
length-valued `box_height` by the vertical factor: expresses a box set "in
the resized frame", as the round-trip claim puts it. -/
def scalePrediction (factor_w factor_h : ℚ) (prediction : Prediction) : Prediction :=
  { prediction with
    boxes := prediction.boxes.map (fun b =>
      ⟨b.xmin * factor_w, b.ymin * factor_h, b.xmax * factor_w, b.ymax * factor_h⟩),
    boxHeight := prediction.boxHeight.map (· * factor_h) }

/-- `ImgRescaleOperator.forward`: `scale = ref_box_height / box_height`
(Python raises `ZeroDivisionError` when `box_height == 0`), then resize by
`scale` and return the actually applied `(scale_w, scale_h)`. -/
def imgRescaleForward (ref_box_height : ℚ) (width height : ℕ) (box_height : ℚ) :
    Except PipelineError ((ℤ × ℤ) × (ℚ × ℚ)) :=
  if box_height = 0 then Except.error PipelineError.zeroDivisionError
  else
    let scale : ℚ := ref_box_height / box_height
    let nw : ℤ := truncToZero ((width : ℚ) * scale)
    let nh : ℤ := truncToZero ((height : ℚ) * scale)
    Except.ok ((nw, nh), ((nw : ℚ) / width, (nh : ℚ) / height))

/-- `SplitRegionOperator.split_region(width, height, size)`:
`n_rows = height / size; n_rows = math.ceil(n_rows if n_rows < 1 else n_rows + 0.5)`
and the same for `n_cols` from `width`. Returns `(n_rows, n_cols)`. -/
def split_region (width height size : ℕ) : ℤ × ℤ :=
  let nr : ℚ := (height : ℚ) / (size : ℚ)
  let n_rows : ℤ := ⌈if nr < 1 then nr else nr + 1/2⌉
  let nc : ℚ := (width : ℚ) / (size : ℚ)
  let n_cols : ℤ := ⌈if nc < 1 then nc else nc + 1/2⌉
  (n_rows, n_cols)

/-- Configuration of `SplitRegionOperator.__init__` (`im_size`,
`merge_iou_threshold=0.3`; the fill color is irrelevant to geometry). -/
structure SplitRegionOperator where
  image_size : ℕ
  merge_iou_threshold : ℚ := 3/10
deriving DecidableEq, Repr

/-- The geometric content of `SplitRegionOperator.forward`: the canvas
("big image") dimensions, the paste offset `(x, y)` of the source image,
and the tile crop offsets `out_start_points` in row-major order. Each tile
is the `image_size × image_size` crop starting at its offset. -/
structure SplitForward where
  canvasW : ℤ
  canvasH : ℤ
  pasteX : ℤ
  pasteY : ℤ
  tileOffsets : List (ℤ × ℤ)
deriving DecidableEq, Repr

/-- `SplitRegionOperator.forward` on an image of the given width/height:
`big_img_w, big_img_h = n_cols * image_size, n_rows * image_size`, then
`big_img_w = max((big_img_w - image.width) // 5 + image.width, image_size)`
(likewise for the height), paste at the centering offset, and crop
`n_rows * n_cols` tiles at `int(col * gap_w), int(row * gap_h)` where
`gap = 0 if count < 2 else (canvas - image_size) / (count - 1)`. -/
def SplitRegionOperator.forward (op : SplitRegionOperator) (width height : ℕ) :
    SplitForward :=
  let rc := split_region width height op.image_size
  let n_rows : ℤ := rc.1
  let n_cols : ℤ := rc.2
  let size : ℤ := (op.image_size : ℤ)
  let big_img_w : ℤ := max (Int.fdiv (n_cols * size - width) 5 + width) size
  let big_img_h : ℤ := max (Int.fdiv (n_rows * size - height) 5 + height) size
  let x : ℤ := Int.fdiv (big_img_w - width) 2
  let y : ℤ := Int.fdiv (big_img_h - height) 2
  let gap_w : ℚ := if n_cols < 2 then 0 else ((big_img_w : ℚ) - (size : ℚ)) / ((n_cols : ℚ) - 1)
  let gap_h : ℚ := if n_rows < 2 then 0 else ((big_img_h : ℚ) - (size : ℚ)) / ((n_rows : ℚ) - 1)
  let tiles : List (ℤ × ℤ) := (List.range n_rows.toNat).flatMap (fun (row : ℕ) =>
    (List.range n_cols.toNat).map (fun (col : ℕ) =>
      (truncToZero ((col : ℚ) * gap_w), truncToZero ((row : ℚ) * gap_h))))
  ⟨big_img_w, big_img_h, x, y, tiles⟩

/-- One detection: a box with its parallel label and score entries. The
spec's DetectionSet invariant `len(boxes) == len(labels) == len(scores)`
is captured by keeping the three in lockstep. -/
structure Detection where
  box : Box
  label : ℤ
  score : ℚ
deriving DecidableEq, Repr

/-- Modelled from the spec: `shift_coordinates` (imported from
`utils.transforms`, not part of the provided sources) translates every box
of a DetectionSet by `(dx, dy)`, labels and scores carried along. -/
def shiftDetections (dets : List Detection) (dx dy : ℚ) : List Detection :=
  dets.map (fun d =>
    { d with box := ⟨d.box.xmin + dx, d.box.ymin + dy, d.box.xmax + dx, d.box.ymax + dy⟩ })

/-- Intersection area of two boxes. -/
def interArea (a b : Box) : ℚ :=
  max 0 (min a.xmax b.xmax - max a.xmin b.xmin) *
    max 0 (min a.ymax b.ymax - max a.ymin b.ymin)

/-- Area of a box. -/
def boxArea (a : Box) : ℚ := (a.xmax - a.xmin) * (a.ymax - a.ymin)

/-- Modelled from the spec's glossary: Intersection over Union — ratio of
overlap area to union area between two boxes. -/
def iou (a b : Box) : ℚ :=
  interArea a b / (boxArea a + boxArea b - interArea a b)

/-- Modelled from the spec: `merge_prediction` (imported from
`utils.transforms`, not part of the provided sources) merges two
DetectionSets already in a common frame: any cross-set pair with IoU above
the threshold is treated as one physical detection and only the
higher-scoring box survives (label and score carried along), ties broken
by encounter order (the first set wins). -/
def merge_prediction (a b : List Detection) (iou_threshold : ℚ) : List Detection :=
  a.filter (fun da =>
    ! b.any (fun db =>
      decide (iou_threshold < iou da.box db.box) && decide (da.score < db.score))) ++
  b.filter (fun db =>
    ! a.any (fun da =>
      decide (iou_threshold < iou da.box db.box) && decide (db.score ≤ da.score)))

/-- `SplitRegionOperator.backward`: for each `(predictions, start_points)`
in `zip(data, all_start_points)` shift the boxes by the negated tile
offset; the first shifted set seeds `all_predictions` and each later one
is `merge_prediction`-ed into it; finally shift the merged set by the
positive canvas-centering `start_point`. An empty iteration leaves
`all_predictions = None` and Python crashes on `None['boxes']`, embedded
as `none`. -/
def SplitRegionOperator.backward (op : SplitRegionOperator)
    (data : List (List Detection)) (all_start_points : List (ℤ × ℤ))
    (start_point : ℤ × ℤ) : Option (List Detection) :=
  let shifted := (data.zip all_start_points).map (fun pr =>
    shiftDetections pr.1 (-(pr.2.1 : ℚ)) (-(pr.2.2 : ℚ)))
  match shifted with
  | [] => none
  | first :: rest =>
      some (shiftDetections
        (rest.foldl (fun acc p => merge_prediction acc p op.merge_iou_threshold) first)
        (start_point.1 : ℚ) (start_point.2 : ℚ))

/-- The mutable per-instance state of a `BranchingOperator`: its `data`
field, `None` until some `forward` call stores an input in it. -/
structure BranchingState (α : Type) where
  data : Option α
deriving DecidableEq, Repr

/-- `BranchingOperator.forward`: stores the input in the instance field
`self.data` and passes it through unchanged with context `None`. -/
def branchingForward (_s : BranchingState α) (v : α) : BranchingState α × (α × Unit) :=
  (⟨some v⟩, (v, ()))

/-- `BranchingOperator.backward`: applies the join `branch_operator` to
`(self.data, data)` — reading whatever the instance field holds at that
moment. -/
def branchingBackward (branch_operator : Option α × α → α)
    (s : BranchingState α) (downstream : α) : α :=
  branch_operator (s.data, downstream)

/-- `ChainOperator.__call__` specialised to a `BranchingOperator` instance,
with the instance's mutable `data` field threaded explicitly: forward,
then the downstream pipeline (which may itself invoke this same instance
and hence rewrite the field), then backward on the resulting state. -/
def branchingCall (branch_operator : Option α × α → α)
    (next_operator : BranchingState α → α → BranchingState α × α)
    (s : BranchingState α) (v : α) : BranchingState α × α :=
  let fwd := branchingForward s v
  let next := next_operator fwd.1 fwd.2.1
  (next.1, branchingBackward branch_operator next.1 next.2)

/-- The dynamic values flowing through a pipeline: atoms (images,
predictions, …, abstracted) and Python lists of values. -/
inductive Val where
  | atom : ℕ → Val
  | list : List Val → Val

/-- View a value as a Python list; anything else makes the combinators'
`for item in data` / list concatenation raise, embedded as `none`. -/
def Val.asList : Val → Option (List Val)
  | .list vs => some vs
  | _ => none

/-- A concrete `ChainOperator` stage: an identifier plus its `forward` and
`backward` methods. Both thread an explicit global mutable state (so that
stages which write instance fields, like `BranchingOperator`, are covered)
and may raise (`none`). `forward` returns `(state, data, addition)`;
`backward` receives `(state, data, addition)` and returns `(state,
result)`. -/
structure Stage where
  id : ℕ
  fwd : Val → Val → Option (Val × Val × Val)
  bwd : Val → Val → Val → Option (Val × Val)

/-- A pipeline: arbitrary composition of `ChainOperator` stages with the
`SplittingOperator` and `BatchingOperator` combinators, terminated by
`FinalOperator`. -/
inductive Pipeline where
  | final : Pipeline
  | chain : Stage → Pipeline → Pipeline
  | splitting : Pipeline → Pipeline
  | batching : ℕ → Pipeline → Pipeline

/-- Observable events of a pipeline run: a stage's `forward` call recording
the context (`addition`) it produced, and its `backward` call recording
the context it received. -/
inductive Event where
  | fwdCall : ℕ → Val → Event
  | bwdCall : ℕ → Val → Event

mutual
/-- Run a pipeline on a state and a value, returning the final state, the
result, and the trace of forward/backward events, or `none` if any stage
raises. `chain` is `ChainOperator.__call__`: forward, run the next
operator, backward with the saved `addition`. `splitting` is
`SplittingOperator.__call__`: run the next operator over each list item.
`batching` is `BatchingOperator.__call__`: run the next operator over each
batch of `split_sequence(data, batch_size)` and concatenate the returned
lists. -/
def runPipeline : Pipeline → Val → Val → Option (Val × Val × List Event)
  | .final, st, v => some (st, v, [])
  | .chain s next, st, v =>
      match s.fwd st v with
      | none => none
      | some (st1, v1, c) =>
          match runPipeline next st1 v1 with
          | none => none
          | some (st2, v2, tr) =>
              match s.bwd st2 v2 c with
              | none => none
              | some (st3, out) =>
                  some (st3, out,
                    Event.fwdCall s.id c :: (tr ++ [Event.bwdCall s.id c]))
  | .splitting next, st, v =>
      match v.asList with
      | none => none
      | some items =>
          match runPipelineList next st items with
          | none => none
          | some (st1, rs, tr) => some (st1, Val.list rs, tr)
  | .batching bsz next, st, v =>
      match v.asList with
      | none => none
      | some items =>
          match runPipelineList next st ((split_sequence bsz items).map Val.list) with
          | none => none
          | some (st1, rs, tr) =>
              match rs.mapM Val.asList with
              | none => none
              | some rss => some (st1, Val.list rss.flatten, tr)
termination_by p st v => (sizeOf p, 0)

/-- Run a pipeline on each value of a list in order, threading the state
and concatenating the traces. -/
def runPipelineList : Pipeline → Val → List Val → Option (Val × List Val × List Event)
  | _, st, [] => some (st, [], [])
  | p, st, v :: vs =>
      match runPipeline p st v with
      | none => none
      | some (st1, r, tr1) =>
          match runPipelineList p st1 vs with
          | none => none
          | some (st2, rs, tr2) => some (st2, r :: rs, tr1 ++ tr2)
termination_by p st l => (sizeOf p, l.length + 1)
end

/-- Well-nested traces: a stage's `backward` event closes its own
`forward` event with the very same context, invocations nesting strictly
LIFO. -/
inductive BalancedTrace : List Event → Prop where
  | nil : BalancedTrace []
  | wrap (i : ℕ) (c : Val) (tr : List Event) :
      BalancedTrace tr →
      BalancedTrace (Event.fwdCall i c :: (tr ++ [Event.bwdCall i c]))
  | append (t1 t2 : List Event) :
      BalancedTrace t1 → BalancedTrace t2 → BalancedTrace (t1 ++ t2)

/-- Number of forward events in a trace. -/
def countFwd (tr : List Event) : ℕ :=
  tr.countP (fun e => match e with | Event.fwdCall _ _ => true | _ => false)

/-- Number of backward events in a trace. -/
def countBwd (tr : List Event) : ℕ :=
  tr.countP (fun e => match e with | Event.bwdCall _ _ => true | _ => false)

/-! ## Theorems -/

/-- One dimension of `split_region`: the branch condition `ratio < 1` is
exactly `d < size`. -/
theorem split_count_cases (d size : ℕ) (hs : 0 < size) :
    (⌈if (d : ℚ) / size < 1 then (d : ℚ) / size else (d : ℚ) / size + 1/2⌉ : ℤ)
      = if d < size then ⌈(d : ℚ) / size⌉ else ⌈(d : ℚ) / size + 1/2⌉ := by
  have hpos : (0 : ℚ) < (size : ℚ) := by exact_mod_cast hs
  have hcond : ((d : ℚ) / size < 1) ↔ (d < size) := by
    rw [div_lt_one hpos]
    exact_mod_cast Iff.rfl
  by_cases hlt : d < size
  · rw [if_pos (hcond.mpr hlt), if_pos hlt]
  · rw [if_neg (fun hc => hlt (hcond.mp hc)), if_neg hlt]

/-- For an evenly dividing dimension the bumped ceiling is one more than
the exact quotient. -/
theorem split_count_dvd (d size : ℕ) (hs : 0 < size) (hdvd : size ∣ d) :
    (⌈(d : ℚ) / size + 1/2⌉ : ℤ) = ((d / size : ℕ) : ℤ) + 1 := by
  have hpos : (0 : ℚ) < (size : ℚ) := by exact_mod_cast hs
  obtain ⟨k, hk⟩ := hdvd
  have hdq : (d : ℚ) / size = ((k : ℤ) : ℚ) := by
    rw [hk]
    push_cast
    field_simp
  have hdiv : d / size = k := by
    rw [hk, Nat.mul_div_cancel_left _ hs]
  rw [hdq, hdiv, add_comm, Int.ceil_add_int]
  have hhalf : (⌈(1/2 : ℚ)⌉ : ℤ) = 1 := by norm_num [Int.ceil_eq_iff]
  rw [hhalf, add_comm]

/-- Claim C3, counterexample: at width = height = 10 and tile size 10 the
ratio is the integer 1, yet `split_region` returns 2 tiles per dimension,
not `dimension / size = 1` as the claim states for evenly dividing
dimensions. -/
theorem split_region_even_division_counterexample :
    split_region 10 10 10 = (2, 2) ∧ (2 : ℤ) ≠ ((10 / 10 : ℕ) : ℤ) := by
  constructor
  · norm_num [split_region, Int.ceil_eq_iff]
  · decide

/-- Claim C3 (amended): `split_region` returns, per dimension,
`ceil(dimension/size)` when `dimension < size` and
`ceil(dimension/size + 0.5)` otherwise — the extra half tile is added
whenever the ratio is at least 1, even when it is integral; consequently
when the tile size divides the dimension evenly the grid count is
`dimension/size + 1`, not `dimension/size`. -/
theorem split_region_grid_count (w h size : ℕ) (hs : 0 < size) :
    ((split_region w h size).1
        = if h < size then ⌈(h : ℚ) / size⌉ else ⌈(h : ℚ) / size + 1/2⌉)
  ∧ ((split_region w h size).2
        = if w < size then ⌈(w : ℚ) / size⌉ else ⌈(w : ℚ) / size + 1/2⌉)
  ∧ (size ∣ h → size ≤ h → (split_region w h size).1 = ((h / size : ℕ) : ℤ) + 1)
  ∧ (size ∣ w → size ≤ w → (split_region w h size).2 = ((w / size : ℕ) : ℤ) + 1) := by
  have h1 := split_count_cases h size hs
  have h2 := split_count_cases w size hs
  refine ⟨by simpa [split_region] using h1, by simpa [split_region] using h2, ?_, ?_⟩
  · intro hdvd hle
    have hnlt : ¬ h < size := not_lt.mpr hle
    have : (split_region w h size).1 = ⌈(h : ℚ) / size + 1/2⌉ := by
      simp only [split_region]
      rw [h1, if_neg hnlt]
    rw [this, split_count_dvd h size hs hdvd]
  · intro hdvd hle
    have hnlt : ¬ w < size := not_lt.mpr hle
    have : (split_region w h size).2 = ⌈(w : ℚ) / size + 1/2⌉ := by
      simp only [split_region]
      rw [h2, if_neg hnlt]
    rw [this, split_count_dvd w size hs hdvd]

/-- Claim C3, witness: a 20 × 30 image with tile size 10 gets a
(30/10 + 1) × (20/10 + 1) = 4 × 3 grid. -/
theorem split_region_grid_count_witness :
    (split_region 20 30 10).1 = ((30 / 10 : ℕ) : ℤ) + 1
  ∧ (split_region 20 30 10).2 = ((20 / 10 : ℕ) : ℤ) + 1 :=
  ⟨(split_region_grid_count 20 30 10 (by norm_num)).2.2.1 (by norm_num) (by norm_num),
   (split_region_grid_count 20 30 10 (by norm_num)).2.2.2 (by norm_num) (by norm_num)⟩

/-- Claim C7: `BoxHeightPredictionOperator.backward` raises
`NotEnoughBoxes` exactly when the box count is strictly below
`min_boxes_count`, and otherwise attaches the mean box height
(mean of ymax − ymin) as `box_height` and returns the prediction. -/
theorem boxHeightPrediction_backward_spec (m : ℕ) (p : Prediction) :
    (boxHeightPredictionBackward m p = Except.error PipelineError.notEnoughBoxes
        ↔ p.boxes.length < m)
  ∧ (m ≤ p.boxes.length →
      boxHeightPredictionBackward m p = Except.ok { p with
        boxHeight := some (((p.boxes.map (fun b => b.ymax - b.ymin)).sum) /
          (p.boxes.length : ℚ)) }) := by
  by_cases hlt : p.boxes.length < m
  · refine ⟨⟨fun _ => hlt, fun _ => ?_⟩, fun hle => absurd hle (not_le.mpr hlt)⟩
    simp [boxHeightPredictionBackward, hlt]
  · refine ⟨⟨fun hE => ?_, fun hc => absurd hc hlt⟩, fun _ => ?_⟩
    · simp [boxHeightPredictionBackward, hlt] at hE
    · simp [boxHeightPredictionBackward, hlt]

/-- Claim C7, witness: with minimum 1 and a single box of height 3 the
backward step succeeds and attaches `box_height = 3`. -/
theorem boxHeightPrediction_backward_witness :
    boxHeightPredictionBackward 1 ⟨[⟨0, 0, 2, 3⟩], [1], [1/2], none⟩
      = Except.ok ⟨[⟨0, 0, 2, 3⟩], [1], [1/2], some 3⟩ := by
  have h := (boxHeightPrediction_backward_spec 1 ⟨[⟨0, 0, 2, 3⟩], [1], [1/2], none⟩).2
    (by norm_num)
  rw [h]
  norm_num

/-- Claim C8: `LongRectangleCropOperator.backward` only averages the
scalar `box_height` attribute across the per-half results — its value
never depends on the `merge_iou_threshold` accepted by the constructor,
and no IoU merging of box sets takes place (the result is the arithmetic
mean of the halves' `box_height` scalars). -/
theorem longRectangleCrop_backward_spec (op : LongRectangleCropOperator) (t : ℚ)
    (data : List Prediction) (starts : List (ℚ × ℚ)) (hs : List ℚ)
    (hmap : (data.zip starts).mapM (fun pr => pr.1.boxHeight) = some hs)
    (hne : hs ≠ []) :
    LongRectangleCropOperator.backward { op with merge_iou_threshold := t } data starts
        = LongRectangleCropOperator.backward op data starts
  ∧ LongRectangleCropOperator.backward op data starts
        = some (hs.sum / (hs.length : ℚ)) := by
  constructor
  · rfl
  · have hlen : hs.length ≠ 0 := fun hc => hne (List.eq_nil_of_length_eq_zero hc)
    unfold LongRectangleCropOperator.backward
    rw [hmap]
    simp [hlen]

/-- Claim C8, witness: averaging halves with box heights 2 and 4 gives 3,
for any two thresholds. -/
theorem longRectangleCrop_backward_witness :
    LongRectangleCropOperator.backward ⟨13/10, 3/5, 9/10⟩
        [⟨[], [], [], some 2⟩, ⟨[], [], [], some 4⟩] [(0, 0), (0, 0)]
      = LongRectangleCropOperator.backward ⟨13/10, 3/5, 3/10⟩
        [⟨[], [], [], some 2⟩, ⟨[], [], [], some 4⟩] [(0, 0), (0, 0)]
  ∧ LongRectangleCropOperator.backward ⟨13/10, 3/5, 3/10⟩
        [⟨[], [], [], some 2⟩, ⟨[], [], [], some 4⟩] [(0, 0), (0, 0)] = some 3 := by
  have h := longRectangleCrop_backward_spec ⟨13/10, 3/5, 3/10⟩ (9/10)
    [⟨[], [], [], some 2⟩, ⟨[], [], [], some 4⟩] [(0, 0), (0, 0)] [2, 4] rfl
    (by simp)
  exact ⟨h.1, h.2.trans (by norm_num)⟩

/-- Claim C9: `ResizingImageOperator.forward` produces per-axis factors
`(factor_w, factor_h) = (resized/original per axis)`, and its `backward`
divides x-coordinates by `factor_w`, y-coordinates and `box_height` by
`factor_h`; hence a box set expressed in the resized frame by scaling the
original coordinates by these factors is returned exactly to the original
by `backward`, for positive factors. -/
theorem resizingImage_roundtrip (image_max_size w h : ℕ) (dims : ℕ × ℕ) (f : ℚ × ℚ)
    (hfwd : resizingImageForward image_max_size w h = (dims, f))
    (hw : 0 < f.1) (hh : 0 < f.2) (p : Prediction) (bh : ℚ)
    (hbh : p.boxHeight = some bh) :
    f = ((dims.1 : ℚ) / w, (dims.2 : ℚ) / h)
  ∧ resizingImageBackward (scalePrediction f.1 f.2 p) f = some p := by
  constructor
  · obtain ⟨d1, d2⟩ := dims
    obtain ⟨f1, f2⟩ := f
    simp only [resizingImageForward, Prod.mk.injEq] at hfwd
    obtain ⟨⟨e1, e2⟩, e3, e4⟩ := hfwd
    simp only [← e1, ← e2, ← e3, ← e4]
  · have hw0 : f.1 ≠ 0 := ne_of_gt hw
    have hh0 : f.2 ≠ 0 := ne_of_gt hh
    obtain ⟨bs, ls, ss, bho⟩ := p
    have hbh2 : bho = some bh := hbh
    subst hbh2
    have hbox : ∀ b : Box,
        Box.mk (b.xmin * f.1 / f.1) (b.ymin * f.2 / f.2)
          (b.xmax * f.1 / f.1) (b.ymax * f.2 / f.2) = b := by
      intro b
      rw [mul_div_cancel_right₀ _ hw0, mul_div_cancel_right₀ _ hh0,
        mul_div_cancel_right₀ _ hw0, mul_div_cancel_right₀ _ hh0]
    have hcomp : ((fun b : Box =>
          Box.mk (b.xmin / f.1) (b.ymin / f.2) (b.xmax / f.1) (b.ymax / f.2)) ∘
        (fun b : Box =>
          Box.mk (b.xmin * f.1) (b.ymin * f.2) (b.xmax * f.1) (b.ymax * f.2))) = id := by
      funext b
      exact hbox b
    simp [scalePrediction, resizingImageBackward, List.map_map, hcomp,
      mul_div_cancel_right₀ _ hh0]

/-- Claim C9, witness: a 50 × 100 image with `image_max_size = 100` gets
factors (1, 1) and the round trip returns the box set unchanged. -/
theorem resizingImage_roundtrip_witness :
    resizingImageBackward
        (scalePrediction (1 : ℚ) 1 ⟨[⟨1, 2, 3, 4⟩], [5], [1/2], some 7⟩) (1, 1)
      = some ⟨[⟨1, 2, 3, 4⟩], [5], [1/2], some 7⟩ :=
  (resizingImage_roundtrip 100 50 100 (50, 100) (1, 1)
    (by norm_num [resizingImageForward, truncToZero,
      show Int.toNat 50 = 50 from rfl, show Int.toNat 100 = 100 from rfl])
    (by norm_num) (by norm_num)
    ⟨[⟨1, 2, 3, 4⟩], [5], [1/2], some 7⟩ 7 rfl).2

/-- Claim C10: `ImgRescaleOperator.forward` fails exactly when the
measured `box_height` is zero, and then with the raw division-by-zero
error, never the domain-specific `NotEnoughBoxes`; for nonzero
`box_height` it succeeds and resizes by `scale = ref_box_height /
box_height`. -/
theorem imgRescale_forward_spec (ref : ℚ) (w h : ℕ) (bh : ℚ) :
    (imgRescaleForward ref w h bh = Except.error PipelineError.zeroDivisionError
        ↔ bh = 0)
  ∧ (∀ e, imgRescaleForward ref w h bh = Except.error e →
      e = PipelineError.zeroDivisionError)
  ∧ (bh ≠ 0 → imgRescaleForward ref w h bh =
      Except.ok ((truncToZero ((w : ℚ) * (ref / bh)), truncToZero ((h : ℚ) * (ref / bh))),
        ((truncToZero ((w : ℚ) * (ref / bh)) : ℚ) / w,
         (truncToZero ((h : ℚ) * (ref / bh)) : ℚ) / h))) := by
  by_cases hz : bh = 0
  · refine ⟨⟨fun _ => hz, fun _ => ?_⟩, fun e he => ?_, fun hnz => absurd hz hnz⟩
    · simp [imgRescaleForward, hz]
    · simp [imgRescaleForward, hz] at he
      exact he.symm
  · refine ⟨⟨fun he => ?_, fun hc => absurd hc hz⟩, fun e he => ?_, fun _ => ?_⟩
    · simp [imgRescaleForward, hz] at he
    · simp [imgRescaleForward, hz] at he
    · simp [imgRescaleForward, hz]

/-- Claim C10, witness: `box_height = 0` raises the raw division-by-zero
error, while `box_height = 1` succeeds. -/
theorem imgRescale_forward_witness :
    imgRescaleForward 2 10 10 0 = Except.error PipelineError.zeroDivisionError
  ∧ imgRescaleForward 2 10 10 1 =
      Except.ok ((truncToZero ((10 : ℚ) * (2 / 1)), truncToZero ((10 : ℚ) * (2 / 1))),
        ((truncToZero ((10 : ℚ) * (2 / 1)) : ℚ) / 10,
         (truncToZero ((10 : ℚ) * (2 / 1)) : ℚ) / 10)) :=
  ⟨(imgRescale_forward_spec 2 10 10 0).1.mpr rfl,
   (imgRescale_forward_spec 2 10 10 1).2.2 (by norm_num)⟩

/-- Claim C2, counterexample: one `BranchingOperator` instance invoked at
two nesting levels. The outer invocation's forward saves its input 1 in
`self.data`, but the nested invocation of the same instance (on input 2)
overwrites the field before the outer backward runs, so the outer
backward combines the inner invocation's saved input 2, not its own
saved input 1. The join function returns exactly the saved value it was
handed. -/
theorem branching_nested_counterexample :
    (branchingCall (fun pr => pr.1.getD 0)
        (fun s _ =>
          branchingCall (fun pr => pr.1.getD 0) (fun s2 v2 => (s2, v2)) s 2)
        ⟨none⟩ 1).2 = 2
  ∧ (2 : ℕ) ≠ 1 := by
  constructor
  · rfl
  · decide

/-- Claim C2 (amended): the value `BranchingOperator.backward` combines is
whatever the instance's mutable `data` field holds after the downstream
pipeline returns. Whenever the downstream does not invoke the same
instance again (it leaves the instance state unchanged), that is exactly
the input saved by the forward step of the same invocation — so repeated
sequential invocations each see their own saved input; but a nested
invocation of the same instance overwrites the field and the outer
backward observes the inner invocation's saved value instead. -/
theorem branching_per_invocation_when_unnested (branch_operator : Option α × α → α)
    (next_operator : BranchingState α → α → BranchingState α × α)
    (hpres : ∀ s v, (next_operator s v).1 = s) (s : BranchingState α) (v : α) :
    (branchingCall branch_operator next_operator s v).2
      = branch_operator (some v, (next_operator ⟨some v⟩ v).2) := by
  simp [branchingCall, branchingForward, branchingBackward, hpres]

/-- Claim C2, witness: a state-preserving downstream (`v ↦ v + 10`) makes
backward combine exactly this invocation's input 5. -/
theorem branching_per_invocation_witness :
    (branchingCall (fun pr => pr.1.getD 0 + pr.2)
        (fun s v => (s, v + 10)) ⟨none⟩ 5).2
      = (fun pr : Option ℕ × ℕ => pr.1.getD 0 + pr.2)
          (some 5, ((fun s (v : ℕ) => (s, v + 10)) (⟨some 5⟩ : BranchingState ℕ) 5).2) :=
  branching_per_invocation_when_unnested (fun pr => pr.1.getD 0 + pr.2)
    (fun s v => (s, v + 10)) (fun _ _ => rfl) ⟨none⟩ 5

/-- Concatenating the chunks of `split_sequence` restores the sequence. -/
theorem split_sequence_flatten_aux (B n : ℕ) :
    ∀ (l : List α), l.length ≤ n → (split_sequence B l).flatten = l := by
  induction n with
  | zero =>
      intro l hl
      have hnil : l = [] := List.eq_nil_of_length_eq_zero (Nat.le_zero.mp hl)
      subst hnil
      simp [split_sequence]
  | succ n ih =>
      intro l hl
      cases l with
      | nil => simp [split_sequence]
      | cons x xs =>
          simp only [List.length_cons] at hl
          rw [split_sequence]
          simp only [List.flatten_cons, List.cons_append]
          rw [ih (xs.drop (B - 1)) (by simp only [List.length_drop]; omega)]
          simp [List.take_append_drop]

theorem split_sequence_flatten (B : ℕ) (l : List α) :
    (split_sequence B l).flatten = l :=
  split_sequence_flatten_aux B l.length l le_rfl

/-- The number of chunks is `ceil(N / B)`, i.e. `(N + B - 1) / B`. -/
theorem split_sequence_length_aux (m n : ℕ) :
    ∀ (l : List α), l.length ≤ n →
      (split_sequence (m + 1) l).length = (l.length + (m + 1) - 1) / (m + 1) := by
  induction n with
  | zero =>
      intro l hl
      have hnil : l = [] := List.eq_nil_of_length_eq_zero (Nat.le_zero.mp hl)
      subst hnil
      simp [split_sequence, Nat.div_eq_of_lt (show m < m + 1 by omega)]
  | succ n ih =>
      intro l hl
      cases l with
      | nil => simp [split_sequence, Nat.div_eq_of_lt (show m < m + 1 by omega)]
      | cons x xs =>
          simp only [List.length_cons] at hl
          rw [split_sequence]
          simp only [List.length_cons, Nat.add_sub_cancel]
          rw [ih (xs.drop m) (by simp only [List.length_drop]; omega)]
          simp only [List.length_drop]
          rcases Nat.le_total m xs.length with hc | hc
          · have h1 : xs.length - m + (m + 1) - 1 = xs.length := by omega
            have h2 : xs.length + 1 + (m + 1) - 1 = xs.length + (m + 1) := by omega
            rw [h1, h2, Nat.add_div_right _ (by omega)]
          · have h1 : xs.length - m + (m + 1) - 1 = m := by omega
            have h2 : xs.length + 1 + (m + 1) - 1 = xs.length + m + 1 := by omega
            rw [h1, h2, Nat.div_eq_of_lt (show m < m + 1 by omega),
              show (xs.length + m + 1) / (m + 1) = 1 from
                Nat.div_eq_of_lt_le (by omega) (by omega)]

theorem split_sequence_length (B : ℕ) (hB : 1 ≤ B) (l : List α) :
    (split_sequence B l).length = (l.length + B - 1) / B := by
  obtain ⟨m, rfl⟩ : ∃ m, B = m + 1 := ⟨B - 1, by omega⟩
  exact split_sequence_length_aux m l.length l le_rfl

/-- Every chunk has at most `B` elements. -/
theorem split_sequence_chunk_le_aux (B n : ℕ) (hB : 1 ≤ B) :
    ∀ (l : List α), l.length ≤ n → ∀ c ∈ split_sequence B l, c.length ≤ B := by
  induction n with
  | zero =>
      intro l hl
      have hnil : l = [] := List.eq_nil_of_length_eq_zero (Nat.le_zero.mp hl)
      subst hnil
      simp [split_sequence]
  | succ n ih =>
      intro l hl c hc
      cases l with
      | nil => simp [split_sequence] at hc
      | cons x xs =>
          simp only [List.length_cons] at hl
          rw [split_sequence] at hc
          rcases List.mem_cons.mp hc with h | h
          · subst h
            simp only [List.length_cons, List.length_take]
            omega
          · exact ih (xs.drop (B - 1)) (by simp only [List.length_drop]; omega) c h

/-- Every chunk but the last has exactly `B` elements. -/
theorem split_sequence_dropLast_aux (B n : ℕ) (hB : 1 ≤ B) :
    ∀ (l : List α), l.length ≤ n →
      ∀ c ∈ (split_sequence B l).dropLast, c.length = B := by
  induction n with
  | zero =>
      intro l hl
      have hnil : l = [] := List.eq_nil_of_length_eq_zero (Nat.le_zero.mp hl)
      subst hnil
      simp [split_sequence]
  | succ n ih =>
      intro l hl c hc
      cases l with
      | nil => simp [split_sequence] at hc
      | cons x xs =>
          simp only [List.length_cons] at hl
          rw [split_sequence] at hc
          cases hrest : split_sequence B (xs.drop (B - 1)) with
          | nil => rw [hrest] at hc; simp at hc
          | cons r0 rt =>
              rw [hrest, List.dropLast_cons₂] at hc
              have hdrop : xs.drop (B - 1) ≠ [] := by
                intro hd
                rw [hd, split_sequence] at hrest
                exact List.noConfusion hrest
              have hlen : B - 1 < xs.length := by
                by_contra hcon
                exact hdrop (List.drop_eq_nil_of_le (by omega))
              rcases List.mem_cons.mp hc with h | h
              · subst h
                simp only [List.length_cons, List.length_take]
                omega
              · rw [← hrest] at h
                exact ih (xs.drop (B - 1)) (by simp only [List.length_drop]; omega) c h

/-- Flattening singleton images of a map is the map itself. -/
theorem flatten_map_singleton (g : α → β) (l : List α) :
    (l.map (fun x => [g x])).flatten = l.map g := by
  induction l with
  | nil => rfl
  | cons x xs ih => simp [ih]

/-- Claim C6: for batch size B ≥ 1, `BatchingOperator` partitions the
input into `ceil(N/B)` contiguous order-preserving groups (all of size B
except possibly the last), invokes the downstream once per group, and
concatenates the group results in order; for a deterministic,
batch-size-invariant downstream (one acting elementwise via some `g`) the
N-length output matches, element for element, running each item
individually through the same downstream. -/
theorem batching_order_length_invariants (B : ℕ) (hB : 1 ≤ B)
    (next_operator : List α → List β) (g : α → β)
    (hdet : ∀ l, next_operator l = l.map g) (data : List α) :
    batchingCall B next_operator data = data.map g
  ∧ (batchingCall B next_operator data).length = data.length
  ∧ batchingCall B next_operator data = (data.map (fun x => next_operator [x])).flatten
  ∧ (split_sequence B data).flatten = data
  ∧ (split_sequence B data).length = (data.length + B - 1) / B
  ∧ (∀ c ∈ split_sequence B data, c.length ≤ B)
  ∧ (∀ c ∈ (split_sequence B data).dropLast, c.length = B) := by
  have hmain : batchingCall B next_operator data = data.map g := by
    unfold batchingCall
    rw [List.map_congr_left (fun c _ => hdet c), ← List.map_flatten,
      split_sequence_flatten]
  refine ⟨hmain, by rw [hmain, List.length_map], ?_,
    split_sequence_flatten B data, split_sequence_length B hB data,
    split_sequence_chunk_le_aux B data.length hB data le_rfl,
    split_sequence_dropLast_aux B data.length hB data le_rfl⟩
  rw [hmain, List.map_congr_left (fun x _ => hdet [x])]
  exact (flatten_map_singleton g data).symm

/-- Claim C6, witness: batch size 2 over three items gives two groups and
the same output as mapping each item individually. -/
theorem batching_order_length_witness :
    batchingCall 2 (fun l => l.map (fun x : ℕ => x + 1)) [1, 2, 3] = [2, 3, 4]
  ∧ (split_sequence 2 ([1, 2, 3] : List ℕ)).length = 2 := by
  have h := batching_order_length_invariants 2 (by norm_num)
    (fun l => l.map (fun x : ℕ => x + 1)) (fun x => x + 1) (fun l => rfl) [1, 2, 3]
  exact ⟨h.1.trans (by simp), h.2.2.2.2.1.trans (by norm_num)⟩

/-- Merging two DetectionSets never produces more boxes than their
total. -/
theorem merge_prediction_length_le (a b : List Detection) (t : ℚ) :
    (merge_prediction a b t).length ≤ a.length + b.length := by
  unfold merge_prediction
  rw [List.length_append]
  exact Nat.add_le_add (List.length_filter_le _ _) (List.length_filter_le _ _)

/-- Folding incremental merges keeps the count below the total. -/
theorem foldl_merge_length_le (t : ℚ) (rest : List (List Detection)) :
    ∀ acc : List Detection,
      (rest.foldl (fun acc p => merge_prediction acc p t) acc).length
        ≤ acc.length + (rest.map List.length).sum := by
  induction rest with
  | nil => intro acc; simp
  | cons p ps ih =>
      intro acc
      simp only [List.foldl_cons, List.map_cons, List.sum_cons]
      calc (ps.foldl (fun acc p => merge_prediction acc p t)
              (merge_prediction acc p t)).length
          ≤ (merge_prediction acc p t).length + (ps.map List.length).sum := ih _
        _ ≤ acc.length + p.length + (ps.map List.length).sum :=
            Nat.add_le_add_right (merge_prediction_length_le acc p t) _
        _ = acc.length + (p.length + (ps.map List.length).sum) := by omega

/-- Shifting preserves the box count. -/
theorem shiftDetections_length (d : List Detection) (dx dy : ℚ) :
    (shiftDetections d dx dy).length = d.length := by
  simp [shiftDetections]

/-- Summed lengths over a zip are bounded by the summed lengths of the
first component. -/
theorem zip_shift_length_sum_le (starts : List (ℤ × ℤ)) :
    ∀ data : List (List Detection),
      (((data.zip starts).map (fun pr =>
          shiftDetections pr.1 (-(pr.2.1 : ℚ)) (-(pr.2.2 : ℚ)))).map List.length).sum
        ≤ (data.map List.length).sum := by
  induction starts with
  | nil => intro data; simp
  | cons sp sps ih =>
      intro data
      cases data with
      | nil => simp
      | cons d ds =>
          simp only [List.zip_cons_cons, List.map_cons, List.sum_cons,
            shiftDetections_length]
          exact Nat.add_le_add_left (ih ds) _

/-- Claim C5: `SplitRegionOperator.backward` shifts each tile's detections
by the negated tile offset, merges the shifted sets incrementally (first
with second, the result with the third, …) via the IoU merge, and shifts
the merged set by the positive canvas-centering offset; the resulting box
count is at most the sum of the input box counts. -/
theorem splitRegion_backward_spec (op : SplitRegionOperator)
    (data : List (List Detection)) (starts : List (ℤ × ℤ)) (sp : ℤ × ℤ)
    (first : List Detection) (rest : List (List Detection))
    (hzip : (data.zip starts).map (fun pr =>
        shiftDetections pr.1 (-(pr.2.1 : ℚ)) (-(pr.2.2 : ℚ))) = first :: rest) :
    SplitRegionOperator.backward op data starts sp
      = some (shiftDetections
          (rest.foldl (fun acc p => merge_prediction acc p op.merge_iou_threshold) first)
          (sp.1 : ℚ) (sp.2 : ℚ))
  ∧ ∀ res, SplitRegionOperator.backward op data starts sp = some res →
      res.length ≤ (data.map List.length).sum := by
  have heq : SplitRegionOperator.backward op data starts sp
      = some (shiftDetections
          (rest.foldl (fun acc p => merge_prediction acc p op.merge_iou_threshold) first)
          (sp.1 : ℚ) (sp.2 : ℚ)) := by
    unfold SplitRegionOperator.backward
    rw [hzip]
  refine ⟨heq, fun res hres => ?_⟩
  rw [heq] at hres
  have hres2 := Option.some.inj hres
  subst hres2
  rw [shiftDetections_length]
  calc (rest.foldl (fun acc p => merge_prediction acc p op.merge_iou_threshold)
          first).length
      ≤ first.length + (rest.map List.length).sum :=
        foldl_merge_length_le op.merge_iou_threshold rest first
    _ = ((first :: rest).map List.length).sum := by simp
    _ ≤ (data.map List.length).sum := by
        rw [← hzip]
        exact zip_shift_length_sum_le starts data

/-- Claim C5, witness: two tiles with one detection each (same box, scores
1/2 and 3/4) merge to at most 1 + 1 = 2 boxes. -/
theorem splitRegion_backward_witness :
    (shiftDetections
        (([shiftDetections [⟨⟨0, 0, 10, 10⟩, 1, 3/4⟩] (-((0 : ℤ) : ℚ)) (-((0 : ℤ) : ℚ))]).foldl
          (fun acc p => merge_prediction acc p (3/10))
          (shiftDetections [⟨⟨0, 0, 10, 10⟩, 1, 1/2⟩] (-((0 : ℤ) : ℚ)) (-((0 : ℤ) : ℚ))))
        ((0 : ℤ) : ℚ) ((0 : ℤ) : ℚ)).length ≤ 2 := by
  have h := splitRegion_backward_spec ⟨100, 3/10⟩
    [[⟨⟨0, 0, 10, 10⟩, 1, 1/2⟩], [⟨⟨0, 0, 10, 10⟩, 1, 3/4⟩]]
    [(0, 0), (0, 0)] (0, 0)
    (shiftDetections [⟨⟨0, 0, 10, 10⟩, 1, 1/2⟩] (-((0 : ℤ) : ℚ)) (-((0 : ℤ) : ℚ)))
    [shiftDetections [⟨⟨0, 0, 10, 10⟩, 1, 3/4⟩] (-((0 : ℤ) : ℚ)) (-((0 : ℤ) : ℚ))]
    rfl
  exact h.2 _ h.1

/-- A row-major double loop produces `m * n` entries. -/
theorem flatMap_range_map_length (m n : ℕ) (g : ℕ → ℕ → β) :
    ((List.range m).flatMap (fun r => (List.range n).map (g r))).length = m * n := by
  rw [List.length_flatMap]
  have hconst : (List.range m).map (List.length ∘ fun r => (List.range n).map (g r))
      = List.replicate m n := by
    have : (List.length ∘ fun r => (List.range n).map (g r)) = fun _ => n := by
      funext r
      simp
    rw [this, List.map_const', List.length_range]
  simp only [hconst, List.sum_replicate, smul_eq_mul]

/-- Indexing a row-major double loop at `row * n + col`. -/
theorem flatMap_range_map_getElem (n : ℕ) (g : ℕ → ℕ → β) :
    ∀ (m r c : ℕ), r < m → c < n →
      ((List.range m).flatMap (fun row => (List.range n).map (g row)))[r * n + c]?
        = some (g r c) := by
  intro m
  induction m with
  | zero => intro r c hr _; exact absurd hr (Nat.not_lt_zero r)
  | succ m ih =>
      intro r c hr hc
      rw [List.range_succ, List.flatMap_append]
      by_cases hrm : r < m
      · have hidx : r * n + c
            < ((List.range m).flatMap (fun row => (List.range n).map (g row))).length := by
          rw [flatMap_range_map_length]
          calc r * n + c < r * n + n := by omega
            _ = (r + 1) * n := by ring
            _ ≤ m * n := Nat.mul_le_mul_right n (by omega)
        rw [List.getElem?_append_left hidx]
        exact ih r c hrm hc
      · have hreq : r = m := by omega
        subst hreq
        have hlen : ((List.range r).flatMap
            (fun row => (List.range n).map (g row))).length = r * n :=
          flatMap_range_map_length r n g
        rw [List.getElem?_append_right (by rw [hlen]; omega), hlen,
          Nat.add_sub_cancel_left]
        simp [List.getElem?_range hc]

/-- Claim C4, counterexample: a 100 × 100 image with tile size 50 gets a
3 × 3 grid, whose exact-fit canvas would be 150 × 150, but the canvas
actually built is 110 × 110 — `(grid − image) // 5 + image`, clamped below
by one tile — not `n_cols * image_size` by `n_rows * image_size`. -/
theorem splitRegion_forward_canvas_counterexample :
    split_region 100 100 50 = (3, 3)
  ∧ (SplitRegionOperator.forward ⟨50, 3/10⟩ 100 100).canvasW = 110
  ∧ (SplitRegionOperator.forward ⟨50, 3/10⟩ 100 100).canvasH = 110
  ∧ (110 : ℤ) ≠ 3 * 50 := by
  have hsr : split_region 100 100 50 = (3, 3) := by
    norm_num [split_region, Int.ceil_eq_iff]
  refine ⟨hsr, ?_, ?_, by decide⟩
  · simp only [SplitRegionOperator.forward, hsr]
    decide
  · simp only [SplitRegionOperator.forward, hsr]
    decide

/-- Claim C4 (amended): `SplitRegionOperator.forward` pastes the source
image centered onto a blank canvas whose dimensions are
`max((n_cols * image_size − width) // 5 + width, image_size)` by
`max((n_rows * image_size − height) // 5 + height, image_size)` — one
fifth of the way from the image size toward the exact-fit grid size,
clamped below by one tile, not the exact-fit `n_cols * image_size` by
`n_rows * image_size` — and then crops `n_rows * n_cols` grid cells of
size `image_size` at evenly spaced offsets across that canvas. -/
theorem splitRegion_forward_geometry (op : SplitRegionOperator) (w h : ℕ) :
    (SplitRegionOperator.forward op w h).canvasW
        = max (Int.fdiv ((split_region w h op.image_size).2 * op.image_size - w) 5 + w)
            op.image_size
  ∧ (SplitRegionOperator.forward op w h).canvasH
        = max (Int.fdiv ((split_region w h op.image_size).1 * op.image_size - h) 5 + h)
            op.image_size
  ∧ (SplitRegionOperator.forward op w h).pasteX
        = Int.fdiv ((SplitRegionOperator.forward op w h).canvasW - w) 2
  ∧ (SplitRegionOperator.forward op w h).pasteY
        = Int.fdiv ((SplitRegionOperator.forward op w h).canvasH - h) 2
  ∧ (SplitRegionOperator.forward op w h).tileOffsets.length
        = (split_region w h op.image_size).1.toNat
            * (split_region w h op.image_size).2.toNat
  ∧ (∀ row col, row < (split_region w h op.image_size).1.toNat →
      col < (split_region w h op.image_size).2.toNat →
      (SplitRegionOperator.forward op w h).tileOffsets[row *
          (split_region w h op.image_size).2.toNat + col]?
        = some (truncToZero ((col : ℚ) *
            (if (split_region w h op.image_size).2 < 2 then 0
             else (((SplitRegionOperator.forward op w h).canvasW : ℚ)
                - (op.image_size : ℚ)) / (((split_region w h op.image_size).2 : ℚ) - 1))),
          truncToZero ((row : ℚ) *
            (if (split_region w h op.image_size).1 < 2 then 0
             else (((SplitRegionOperator.forward op w h).canvasH : ℚ)
                - (op.image_size : ℚ)) / (((split_region w h op.image_size).1 : ℚ) - 1))))) := by
  refine ⟨rfl, rfl, rfl, rfl, ?_, ?_⟩
  · simp only [SplitRegionOperator.forward]
    exact flatMap_range_map_length _ _ _
  · intro row col hr hc
    simp only [SplitRegionOperator.forward]
    exact flatMap_range_map_getElem _ _ _ row col hr hc

/-- Claim C4, witness: on the 3 × 3 grid over a 100 × 100 image with tile
size 50 and canvas 110 × 110, the tile at row 1, col 2 (flat index 5)
starts at the evenly spaced offset (60, 30). -/
theorem splitRegion_forward_geometry_witness :
    (SplitRegionOperator.forward ⟨50, 3/10⟩ 100 100).tileOffsets[5]? = some (60, 30) := by
  have hsr : split_region 100 100 50 = (3, 3) := by
    norm_num [split_region, Int.ceil_eq_iff]
  have hcw : (SplitRegionOperator.forward ⟨50, 3/10⟩ 100 100).canvasW = 110 := by
    simp only [SplitRegionOperator.forward, hsr]
    decide
  have hch : (SplitRegionOperator.forward ⟨50, 3/10⟩ 100 100).canvasH = 110 := by
    simp only [SplitRegionOperator.forward, hsr]
    decide
  have h := (splitRegion_forward_geometry ⟨50, 3/10⟩ 100 100).2.2.2.2.2 1 2
    (by rw [hsr]; decide) (by rw [hsr]; decide)
  rw [hsr, hcw, hch] at h
  norm_num [truncToZero] at h
  convert h using 2

/-- A well-nested trace has as many forward as backward events. -/
theorem balancedTrace_count (tr : List Event) (h : BalancedTrace tr) :
    countFwd tr = countBwd tr := by
  induction h with
  | nil => rfl
  | wrap i c tr _ ih =>
      simp [countFwd, countBwd, List.countP_cons, List.countP_append,
        List.countP_nil] at ih ⊢
      omega
  | append t1 t2 _ _ ih1 ih2 =>
      simp [countFwd, countBwd, List.countP_append] at ih1 ih2 ⊢
      omega

/-- If every run of a pipeline yields a well-nested trace, so does running
it over a list of inputs. -/
theorem runPipelineList_balanced (p : Pipeline)
    (hrun : ∀ st v r, runPipeline p st v = some r → BalancedTrace r.2.2) :
    ∀ st l r, runPipelineList p st l = some r → BalancedTrace r.2.2 := by
  intro st l
  induction l generalizing st with
  | nil =>
      intro r h
      simp only [runPipelineList] at h
      cases h
      exact BalancedTrace.nil
  | cons v vs ih =>
      intro r h
      simp only [runPipelineList] at h
      rcases h1 : runPipeline p st v with _ | ⟨st1, rv, tr1⟩
      · simp only [h1] at h
        exact Option.noConfusion h
      · simp only [h1] at h
        rcases h2 : runPipelineList p st1 vs with _ | ⟨st2, rs, tr2⟩
        · simp only [h2] at h
          exact Option.noConfusion h
        · simp only [h2] at h
          cases h
          exact BalancedTrace.append tr1 tr2
            (hrun st v (st1, rv, tr1) h1) (ih st1 (st2, rs, tr2) h2)

/-- Every completed pipeline run produces a well-nested trace. -/
theorem runPipeline_balanced (p : Pipeline) :
    ∀ st v r, runPipeline p st v = some r → BalancedTrace r.2.2 := by
  induction p with
  | final =>
      intro st v r h
      simp only [runPipeline] at h
      cases h
      exact BalancedTrace.nil
  | chain s next ih =>
      intro st v r h
      simp only [runPipeline] at h
      rcases hf : s.fwd st v with _ | ⟨st1, v1, c⟩
      · simp only [hf] at h
        exact Option.noConfusion h
      · simp only [hf] at h
        rcases hr : runPipeline next st1 v1 with _ | ⟨st2, v2, tr⟩
        · simp only [hr] at h
          exact Option.noConfusion h
        · simp only [hr] at h
          rcases hb : s.bwd st2 v2 c with _ | ⟨st3, out⟩
          · simp only [hb] at h
            exact Option.noConfusion h
          · simp only [hb] at h
            cases h
            exact BalancedTrace.wrap s.id c tr (ih st1 v1 (st2, v2, tr) hr)
  | splitting next ih =>
      intro st v r h
      simp only [runPipeline] at h
      rcases hv : v.asList with _ | ⟨items⟩
      · simp only [hv] at h
        exact Option.noConfusion h
      · simp only [hv] at h
        rcases hl : runPipelineList next st items with _ | ⟨st1, rs, tr⟩
        · simp only [hl] at h
          exact Option.noConfusion h
        · simp only [hl] at h
          cases h
          exact runPipelineList_balanced next ih st items (st1, rs, tr) hl
  | batching bsz next ih =>
      intro st v r h
      simp only [runPipeline] at h
      rcases hv : v.asList with _ | ⟨items⟩
      · simp only [hv] at h
        exact Option.noConfusion h
      · simp only [hv] at h
        rcases hl : runPipelineList next st ((split_sequence bsz items).map Val.list)
            with _ | ⟨st1, rs, tr⟩
        · simp only [hl] at h
          exact Option.noConfusion h
        · simp only [hl] at h
          rcases hm : rs.mapM Val.asList with _ | ⟨rss⟩
          · simp only [hm] at h
            exact Option.noConfusion h
          · simp only [hm] at h
            cases h
            exact runPipelineList_balanced next ih st
              ((split_sequence bsz items).map Val.list) (st1, rs, tr) hl

/-- Claim C1: for every pipeline composed arbitrarily from `ChainOperator`
stages and the Splitting/Batching combinators, every completed run has a
well-nested (strict LIFO) trace: each stage invocation performs exactly
one forward and one backward call, the backward call receives exactly the
context its own forward call produced — never a context from another
invocation or stage — and the total number of forward calls equals the
total number of backward calls. -/
theorem chainOperator_stack_discipline (p : Pipeline) (st v st2 out : Val)
    (tr : List Event) (h : runPipeline p st v = some (st2, out, tr)) :
    BalancedTrace tr ∧ countFwd tr = countBwd tr :=
  have hb := runPipeline_balanced p st v (st2, out, tr) h
  ⟨hb, balancedTrace_count tr hb⟩

/-- Claim C1, witness: a single stage (id 7) around the terminal sink, run
on atom 1, yields the trace forward-then-backward with the same context. -/
theorem chainOperator_stack_discipline_witness :
    BalancedTrace [Event.fwdCall 7 (Val.atom 1), Event.bwdCall 7 (Val.atom 1)]
  ∧ countFwd [Event.fwdCall 7 (Val.atom 1), Event.bwdCall 7 (Val.atom 1)]
      = countBwd [Event.fwdCall 7 (Val.atom 1), Event.bwdCall 7 (Val.atom 1)] := by
  refine chainOperator_stack_discipline
    (Pipeline.chain ⟨7, fun st v => some (st, v, v), fun st v _ => some (st, v)⟩
      Pipeline.final)
    (Val.atom 0) (Val.atom 1) (Val.atom 0) (Val.atom 1) _ ?_
  simp [runPipeline]
